import Mathlib

/-!
Verification of the token-tree core: constant/random/ranged integer tokens
(`token/primitives/int.go`), the arithmetic expression tokens (`AddArithmetic`,
`SubArithmetic`, `MulArithmetic`, `DivArithmetic`) and the bounded-repetition
list token (`Least`).  Go machine integers (`int` on a 64-bit platform, and
`uint`) are modelled as mathematical integers with explicit two's-complement
wraparound at the operations where the source can overflow.
-/

namespace Tavor

/-! ### Go machine-integer helpers -/

/-- Two's-complement wraparound of a mathematical integer into the signed
64-bit range, modelling the result of Go `int` arithmetic on a 64-bit
platform. -/
def int64wrap (x : Int) : Int := (x + 2 ^ 63) % 2 ^ 64 - 2 ^ 63

/-- Go's conversion `int(i)` of a `uint` value `i` (a natural number below
`2^64`) to a signed `int`, reinterpreting the two's-complement bits. -/
def int64ofUint (i : Nat) : Int := if i < 2 ^ 63 then (i : Int) else (i : Int) - 2 ^ 64

/-- `math.MaxUint32`. -/
def maxUint32 : Nat := 4294967295

/-- `math.MaxInt64`, the largest value of Go's `int` on a 64-bit platform. -/
def maxInt64 : Int := 2 ^ 63 - 1

/-! ### Decimal text -/

/-- Numeric value of a decimal digit character. -/
def charDigit (c : Char) : Nat := c.toNat - 48

/-- Decimal digit character of a value below ten. -/
def digitChar (d : Nat) : Char := Char.ofNat (48 + d)

/-- Decimal digit string of a natural number, most significant digit first,
as produced by Go's `strconv.Itoa` for nonnegative arguments. -/
def natChars (n : Nat) : List Char :=
  if n = 0 then ['0'] else (Nat.digits 10 n).reverse.map digitChar

/-- Go's `strconv.Itoa`: the decimal text of an integer. -/
def itoa (v : Int) : List Char :=
  if v < 0 then '-' :: natChars (-v).toNat else natChars v.toNat

/-- Numeric value of a string of decimal digits, most significant first. -/
def digitsVal (s : List Char) : Nat := s.foldl (fun acc c => 10 * acc + charDigit c) 0

/-- Go's `strconv.Atoi` applied to a string of decimal digits with the error
discarded, as in `RangeInt.Parse` (`ci, _ := strconv.Atoi(v)`): the empty
string yields `0` (Atoi's value on a syntax error), and a value beyond
`math.MaxInt64` is clamped to `math.MaxInt64` (Atoi's value on a range
error). -/
def atoiDigits (s : List Char) : Int := min (digitsVal s : Int) maxInt64

/-- Go's `strconv.Atoi` on an arbitrary string, with an error treated as a
panic (`none`), as in the arithmetic tokens' `String` methods: an optional
sign followed by a nonempty run of decimal digits, whose value must fit in a
signed 64-bit integer. -/
def goAtoi (s : List Char) : Option Int :=
  match s with
  | '-' :: rest =>
      if rest ≠ [] ∧ (∀ c ∈ rest, '0' ≤ c ∧ c ≤ '9') ∧ (digitsVal rest : Int) ≤ 2 ^ 63 then
        some (-(digitsVal rest : Int))
      else none
  | '+' :: rest =>
      if rest ≠ [] ∧ (∀ c ∈ rest, '0' ≤ c ∧ c ≤ '9') ∧ (digitsVal rest : Int) ≤ maxInt64 then
        some (digitsVal rest : Int)
      else none
  | _ =>
      if s ≠ [] ∧ (∀ c ∈ s, '0' ≤ c ∧ c ≤ '9') ∧ (digitsVal s : Int) ≤ maxInt64 then
        some (digitsVal s : Int)
      else none

/-! ### The token variants -/

/-- The closed set of token variants shown in the source: `ConstantInt`,
`RandomInt` and `RangeInt` from `token/primitives/int.go`, the four binary
arithmetic tokens, and the bounded-repetition list `Least` (minimum count
`n`, template `token`, materialized elements `value`). -/
inductive Tok where
  | constantInt (value : Int)
  | randomInt (value : Int)
  | rangeInt (lo hi step value : Int)
  | addArithmetic (a b : Tok)
  | subArithmetic (a b : Tok)
  | mulArithmetic (a b : Tok)
  | divArithmetic (a b : Tok)
  | least (n : Int) (token : Tok) (value : List Tok)

mutual

/-- Decidable structural equality of tokens (the automatic derivation does
not support the nested `List` field). -/
def tokDecEq : (a b : Tok) → Decidable (a = b)
  | .constantInt v, .constantInt w =>
      if h : v = w then .isTrue (by rw [h])
      else .isFalse (fun he => by injection he with e; exact h e)
  | .constantInt _, .randomInt _ => .isFalse (fun h => Tok.noConfusion h)
  | .constantInt _, .rangeInt _ _ _ _ => .isFalse (fun h => Tok.noConfusion h)
  | .constantInt _, .addArithmetic _ _ => .isFalse (fun h => Tok.noConfusion h)
  | .constantInt _, .subArithmetic _ _ => .isFalse (fun h => Tok.noConfusion h)
  | .constantInt _, .mulArithmetic _ _ => .isFalse (fun h => Tok.noConfusion h)
  | .constantInt _, .divArithmetic _ _ => .isFalse (fun h => Tok.noConfusion h)
  | .constantInt _, .least _ _ _ => .isFalse (fun h => Tok.noConfusion h)
  | .randomInt _, .constantInt _ => .isFalse (fun h => Tok.noConfusion h)
  | .randomInt v, .randomInt w =>
      if h : v = w then .isTrue (by rw [h])
      else .isFalse (fun he => by injection he with e; exact h e)
  | .randomInt _, .rangeInt _ _ _ _ => .isFalse (fun h => Tok.noConfusion h)
  | .randomInt _, .addArithmetic _ _ => .isFalse (fun h => Tok.noConfusion h)
  | .randomInt _, .subArithmetic _ _ => .isFalse (fun h => Tok.noConfusion h)
  | .randomInt _, .mulArithmetic _ _ => .isFalse (fun h => Tok.noConfusion h)
  | .randomInt _, .divArithmetic _ _ => .isFalse (fun h => Tok.noConfusion h)
  | .randomInt _, .least _ _ _ => .isFalse (fun h => Tok.noConfusion h)
  | .rangeInt _ _ _ _, .constantInt _ => .isFalse (fun h => Tok.noConfusion h)
  | .rangeInt _ _ _ _, .randomInt _ => .isFalse (fun h => Tok.noConfusion h)
  | .rangeInt a b c d, .rangeInt a' b' c' d' =>
      if h : a = a' ∧ b = b' ∧ c = c' ∧ d = d' then
        .isTrue (by rw [h.1, h.2.1, h.2.2.1, h.2.2.2])
      else .isFalse (fun he => by
        injection he with e1 e2 e3 e4; exact h ⟨e1, e2, e3, e4⟩)
  | .rangeInt _ _ _ _, .addArithmetic _ _ => .isFalse (fun h => Tok.noConfusion h)
  | .rangeInt _ _ _ _, .subArithmetic _ _ => .isFalse (fun h => Tok.noConfusion h)
  | .rangeInt _ _ _ _, .mulArithmetic _ _ => .isFalse (fun h => Tok.noConfusion h)
  | .rangeInt _ _ _ _, .divArithmetic _ _ => .isFalse (fun h => Tok.noConfusion h)
  | .rangeInt _ _ _ _, .least _ _ _ => .isFalse (fun h => Tok.noConfusion h)
  | .addArithmetic _ _, .constantInt _ => .isFalse (fun h => Tok.noConfusion h)
  | .addArithmetic _ _, .randomInt _ => .isFalse (fun h => Tok.noConfusion h)
  | .addArithmetic _ _, .rangeInt _ _ _ _ => .isFalse (fun h => Tok.noConfusion h)
  | .addArithmetic x y, .addArithmetic x' y' =>
      match tokDecEq x x', tokDecEq y y' with
      | .isTrue h1, .isTrue h2 => .isTrue (by rw [h1, h2])
      | .isFalse h1, _ => .isFalse (fun he => by injection he with e1 e2; exact h1 e1)
      | _, .isFalse h2 => .isFalse (fun he => by injection he with e1 e2; exact h2 e2)
  | .addArithmetic _ _, .subArithmetic _ _ => .isFalse (fun h => Tok.noConfusion h)
  | .addArithmetic _ _, .mulArithmetic _ _ => .isFalse (fun h => Tok.noConfusion h)
  | .addArithmetic _ _, .divArithmetic _ _ => .isFalse (fun h => Tok.noConfusion h)
  | .addArithmetic _ _, .least _ _ _ => .isFalse (fun h => Tok.noConfusion h)
  | .subArithmetic _ _, .constantInt _ => .isFalse (fun h => Tok.noConfusion h)
  | .subArithmetic _ _, .randomInt _ => .isFalse (fun h => Tok.noConfusion h)
  | .subArithmetic _ _, .rangeInt _ _ _ _ => .isFalse (fun h => Tok.noConfusion h)
  | .subArithmetic _ _, .addArithmetic _ _ => .isFalse (fun h => Tok.noConfusion h)
  | .subArithmetic x y, .subArithmetic x' y' =>
      match tokDecEq x x', tokDecEq y y' with
      | .isTrue h1, .isTrue h2 => .isTrue (by rw [h1, h2])
      | .isFalse h1, _ => .isFalse (fun he => by injection he with e1 e2; exact h1 e1)
      | _, .isFalse h2 => .isFalse (fun he => by injection he with e1 e2; exact h2 e2)
  | .subArithmetic _ _, .mulArithmetic _ _ => .isFalse (fun h => Tok.noConfusion h)
  | .subArithmetic _ _, .divArithmetic _ _ => .isFalse (fun h => Tok.noConfusion h)
  | .subArithmetic _ _, .least _ _ _ => .isFalse (fun h => Tok.noConfusion h)
  | .mulArithmetic _ _, .constantInt _ => .isFalse (fun h => Tok.noConfusion h)
  | .mulArithmetic _ _, .randomInt _ => .isFalse (fun h => Tok.noConfusion h)
  | .mulArithmetic _ _, .rangeInt _ _ _ _ => .isFalse (fun h => Tok.noConfusion h)
  | .mulArithmetic _ _, .addArithmetic _ _ => .isFalse (fun h => Tok.noConfusion h)
  | .mulArithmetic _ _, .subArithmetic _ _ => .isFalse (fun h => Tok.noConfusion h)
  | .mulArithmetic x y, .mulArithmetic x' y' =>
      match tokDecEq x x', tokDecEq y y' with
      | .isTrue h1, .isTrue h2 => .isTrue (by rw [h1, h2])
      | .isFalse h1, _ => .isFalse (fun he => by injection he with e1 e2; exact h1 e1)
      | _, .isFalse h2 => .isFalse (fun he => by injection he with e1 e2; exact h2 e2)
  | .mulArithmetic _ _, .divArithmetic _ _ => .isFalse (fun h => Tok.noConfusion h)
  | .mulArithmetic _ _, .least _ _ _ => .isFalse (fun h => Tok.noConfusion h)
  | .divArithmetic _ _, .constantInt _ => .isFalse (fun h => Tok.noConfusion h)
  | .divArithmetic _ _, .randomInt _ => .isFalse (fun h => Tok.noConfusion h)
  | .divArithmetic _ _, .rangeInt _ _ _ _ => .isFalse (fun h => Tok.noConfusion h)
  | .divArithmetic _ _, .addArithmetic _ _ => .isFalse (fun h => Tok.noConfusion h)
  | .divArithmetic _ _, .subArithmetic _ _ => .isFalse (fun h => Tok.noConfusion h)
  | .divArithmetic _ _, .mulArithmetic _ _ => .isFalse (fun h => Tok.noConfusion h)
  | .divArithmetic x y, .divArithmetic x' y' =>
      match tokDecEq x x', tokDecEq y y' with
      | .isTrue h1, .isTrue h2 => .isTrue (by rw [h1, h2])
      | .isFalse h1, _ => .isFalse (fun he => by injection he with e1 e2; exact h1 e1)
      | _, .isFalse h2 => .isFalse (fun he => by injection he with e1 e2; exact h2 e2)
  | .divArithmetic _ _, .least _ _ _ => .isFalse (fun h => Tok.noConfusion h)
  | .least _ _ _, .constantInt _ => .isFalse (fun h => Tok.noConfusion h)
  | .least _ _ _, .randomInt _ => .isFalse (fun h => Tok.noConfusion h)
  | .least _ _ _, .rangeInt _ _ _ _ => .isFalse (fun h => Tok.noConfusion h)
  | .least _ _ _, .addArithmetic _ _ => .isFalse (fun h => Tok.noConfusion h)
  | .least _ _ _, .subArithmetic _ _ => .isFalse (fun h => Tok.noConfusion h)
  | .least _ _ _, .mulArithmetic _ _ => .isFalse (fun h => Tok.noConfusion h)
  | .least _ _ _, .divArithmetic _ _ => .isFalse (fun h => Tok.noConfusion h)
  | .least n t v, .least n' t' v' =>
      match inferInstanceAs (Decidable (n = n')), tokDecEq t t', tokListDecEq v v' with
      | .isTrue h0, .isTrue h1, .isTrue h2 => .isTrue (by rw [h0, h1, h2])
      | .isFalse h0, _, _ => .isFalse (fun he => by injection he with e0 e1 e2; exact h0 e0)
      | _, .isFalse h1, _ => .isFalse (fun he => by injection he with e0 e1 e2; exact h1 e1)
      | _, _, .isFalse h2 => .isFalse (fun he => by injection he with e0 e1 e2; exact h2 e2)

/-- Decidable structural equality of token lists. -/
def tokListDecEq : (a b : List Tok) → Decidable (a = b)
  | [], [] => .isTrue rfl
  | [], _ :: _ => .isFalse (fun h => List.noConfusion h)
  | _ :: _, [] => .isFalse (fun h => List.noConfusion h)
  | x :: xs, y :: ys =>
      match tokDecEq x y, tokListDecEq xs ys with
      | .isTrue h1, .isTrue h2 => .isTrue (by rw [h1, h2])
      | .isFalse h1, _ => .isFalse (fun he => by injection he with e1 e2; exact h1 e1)
      | _, .isFalse h2 => .isFalse (fun he => by injection he with e1 e2; exact h2 e2)

end

instance : DecidableEq Tok := tokDecEq

mutual

/-- `Clone` of each variant: value tokens copy their fields, the arithmetic
tokens clone both operands, and `Least.Clone` clones the template and every
materialized element. -/
def clone : Tok → Tok
  | .constantInt v => .constantInt v
  | .randomInt v => .randomInt v
  | .rangeInt lo hi s v => .rangeInt lo hi s v
  | .addArithmetic a b => .addArithmetic (clone a) (clone b)
  | .subArithmetic a b => .subArithmetic (clone a) (clone b)
  | .mulArithmetic a b => .mulArithmetic (clone a) (clone b)
  | .divArithmetic a b => .divArithmetic (clone a) (clone b)
  | .least n t v => .least n (clone t) (cloneList v)

/-- Clone of a list of tokens, element by element (the loop in
`Least.Clone`). -/
def cloneList : List Tok → List Tok
  | [] => []
  | x :: xs => clone x :: cloneList xs

end

mutual

/-- `String()` of each variant; `none` models a panic.  The integer tokens
render their current value in decimal; an arithmetic token parses both
operands' rendered text as integers (panicking on a malformed operand) and
renders the combined value; `Least` concatenates its elements' text.
Go's `+`, `-`, `*` on `int` wrap on overflow; `/` truncates toward zero,
panics on a zero divisor, and `math.MinInt64 / -1` wraps. -/
def render : Tok → Option (List Char)
  | .constantInt v => some (itoa v)
  | .randomInt v => some (itoa v)
  | .rangeInt _ _ _ v => some (itoa v)
  | .addArithmetic x y => do
      let sa ← render x
      let a ← goAtoi sa
      let sb ← render y
      let b ← goAtoi sb
      some (itoa (int64wrap (a + b)))
  | .subArithmetic x y => do
      let sa ← render x
      let a ← goAtoi sa
      let sb ← render y
      let b ← goAtoi sb
      some (itoa (int64wrap (a - b)))
  | .mulArithmetic x y => do
      let sa ← render x
      let a ← goAtoi sa
      let sb ← render y
      let b ← goAtoi sb
      some (itoa (int64wrap (a * b)))
  | .divArithmetic x y => do
      let sa ← render x
      let a ← goAtoi sa
      let sb ← render y
      let b ← goAtoi sb
      if b = 0 then none else some (itoa (int64wrap (a.tdiv b)))
  | .least _ _ v => renderList v

/-- Concatenated rendering of a list of tokens (the buffer loop in
`Least.String`). -/
def renderList : List Tok → Option (List Char)
  | [] => some []
  | x :: xs => do
      let s ← render x
      let rest ← renderList xs
      some (s ++ rest)

end

/-! ### Permutation counting -/

/-- `RangeInt.Permutations`: `(to-from)/step + 1` computed in Go `int`
(64-bit, wrapping, division truncating toward zero), falling back to
`math.MaxUint32` when the intermediate signed value is negative, then
converted to `uint`.  The constructors guarantee `from ≤ to` and
`step ≥ 1`, so the division never sees a zero divisor. -/
def rangeIntPermutations (lo hi step : Int) : Nat :=
  let perms : Int := int64wrap ((int64wrap (hi - lo)).tdiv step + 1)
  if perms < 0 then maxUint32 else perms.toNat

/-- `Permutations()` of each variant: `1` for the constant, random and
arithmetic tokens, the range formula for `RangeInt`, and a panic (`none`)
for the repetition list (`TODO this might be hard to fit in 64bit`). -/
def Permutations : Tok → Option Nat
  | .constantInt _ => some 1
  | .randomInt _ => some 1
  | .rangeInt lo hi s _ => some (rangeIntPermutations lo hi s)
  | .addArithmetic _ _ => some 1
  | .subArithmetic _ _ => some 1
  | .mulArithmetic _ _ => some 1
  | .divArithmetic _ _ => some 1
  | .least _ _ _ => none

/-- `PermutationsAll()` of each variant: the integer tokens return their own
`Permutations()`; an arithmetic token returns the product of its operands'
`PermutationsAll()` computed in Go `uint` (wrapping modulo `2^64`); the
repetition list panics (`none`). -/
def PermutationsAll : Tok → Option Nat
  | .constantInt _ => some 1
  | .randomInt _ => some 1
  | .rangeInt lo hi s _ => some (rangeIntPermutations lo hi s)
  | .addArithmetic x y => do
      let a ← PermutationsAll x
      let b ← PermutationsAll y
      some (a * b % 2 ^ 64)
  | .subArithmetic x y => do
      let a ← PermutationsAll x
      let b ← PermutationsAll y
      some (a * b % 2 ^ 64)
  | .mulArithmetic x y => do
      let a ← PermutationsAll x
      let b ← PermutationsAll y
      some (a * b % 2 ^ 64)
  | .divArithmetic x y => do
      let a ← PermutationsAll x
      let b ← PermutationsAll y
      some (a * b % 2 ^ 64)
  | .least _ _ _ => none

/-- The error value `token.PermutationError` carries: only the index
out-of-bound kind appears in the shown source. -/
inductive PermutationErrorType where
  | indexOutOfBound
deriving DecidableEq, Repr

/-- `Permutation(i)` of each variant, with `i` a Go `uint`.  `none` models a
panic (the repetition list's `TODO not implemented`); otherwise the result
pairs the token's state after the call with the returned error, if any.
Every implemented variant first computes its own `Permutations()` and
rejects `i < 1 || i > permutations`; on success the constant and arithmetic
tokens change nothing, `RandomInt` resets its value to `0`, and `RangeInt`
sets `value = from + int(i-1)*step` in wrapping `int` arithmetic. -/
def Permutation : Tok → Nat → Option (Tok × Option PermutationErrorType)
  | .constantInt v, i =>
      if i < 1 ∨ 1 < i then some (.constantInt v, some .indexOutOfBound)
      else some (.constantInt v, none)
  | .randomInt v, i =>
      if i < 1 ∨ 1 < i then some (.randomInt v, some .indexOutOfBound)
      else some (.randomInt 0, none)
  | .rangeInt lo hi s v, i =>
      let permutations := rangeIntPermutations lo hi s
      if i < 1 ∨ permutations < i then some (.rangeInt lo hi s v, some .indexOutOfBound)
      else some (.rangeInt lo hi s (int64wrap (lo + int64wrap (int64ofUint (i - 1) * s))), none)
  | .addArithmetic a b, i =>
      if i < 1 ∨ 1 < i then some (.addArithmetic a b, some .indexOutOfBound)
      else some (.addArithmetic a b, none)
  | .subArithmetic a b, i =>
      if i < 1 ∨ 1 < i then some (.subArithmetic a b, some .indexOutOfBound)
      else some (.subArithmetic a b, none)
  | .mulArithmetic a b, i =>
      if i < 1 ∨ 1 < i then some (.mulArithmetic a b, some .indexOutOfBound)
      else some (.mulArithmetic a b, none)
  | .divArithmetic a b, i =>
      if i < 1 ∨ 1 < i then some (.divArithmetic a b, some .indexOutOfBound)
      else some (.divArithmetic a b, none)
  | .least _ _ _, _ => none

/-! ### Parsing -/

/-- The two kinds of `token.ParserError` raised by the shown source:
unexpected end of input, and unexpected data.  (The human-readable message
carried alongside the kind is not modelled.) -/
inductive ParserErrorType where
  | unexpectedEOF
  | unexpectedData
deriving DecidableEq, Repr

/-- `ConstantInt.Parse`: render the constant, fail with unexpected-EOF if
fewer bytes than its text remain, fail with unexpected-data if the input at
the cursor differs from the text, else advance the cursor past it.  Returns
the new cursor and the error, if any (the token itself is never changed). -/
def constantIntParse (value : Int) (data : List Char) (cur : Nat) :
    Nat × Option ParserErrorType :=
  let v := itoa value
  let vLen := v.length
  let nextIndex := vLen + cur
  if data.length < nextIndex then (cur, some .unexpectedEOF)
  else if v ≠ (data.drop cur).take vLen then (cur, some .unexpectedData)
  else (nextIndex, none)

/-- The digit-scanning loop of `RangeInt.Parse`, carried out on the part of
the buffer from position `i` on (the source indexes `pars.Data[i]` and
maintains `i < pars.DataLen`; an exhausted list models `i == pars.DataLen`
after the increment, and the loop is never entered with the buffer already
exhausted).  Stops at the first non-digit, backs off the last digit as soon
as the accumulated value exceeds `to`, and otherwise consumes digits until
the end of the buffer.  Returns the loop's final `i` and accumulated digit
string `v`. -/
def rangeIntScan (hi : Int) : List Char → Nat → List Char → Nat × List Char
  | [], i, v => (i, v)
  | c :: rest, i, v =>
      if c < '0' ∨ '9' < c then (i, v)
      else
        let v' := v ++ [c]
        if hi < atoiDigits v' then (i, v'.dropLast)
        else if rest = [] then (i + 1, v')
        else rangeIntScan hi rest (i + 1) v'

/-- `RangeInt.Parse`: fail with unexpected-EOF at the end of the buffer;
otherwise run the digit scan from the cursor, decrement the final index,
convert the collected digits, and fail with unexpected-data if no digits
were kept or the value is outside `[from, to]` or not divisible by `step`
(Go's `%`, truncating); on success store the value in the token and return
the position after the consumed digits.  Returns the token's state after
the call, the returned cursor, and the error, if any. -/
def rangeIntParse (lo hi s v : Int) (data : List Char) (cur : Nat) :
    Tok × Nat × Option ParserErrorType :=
  if cur = data.length then (.rangeInt lo hi s v, cur, some .unexpectedEOF)
  else
    let scan := rangeIntScan hi (data.drop cur) cur []
    let i := scan.1 - 1
    let vs := scan.2
    let ci := atoiDigits vs
    if vs = [] ∨ ci < lo ∨ hi < ci ∨ ci.tmod s ≠ 0 then
      (.rangeInt lo hi s v, cur, some .unexpectedData)
    else (.rangeInt lo hi s ci, i + 1, none)

/-- `Parse` of each variant: `none` models a panic (`RandomInt`, the
arithmetic tokens and `Least` all panic with `TODO implement`); otherwise
the token's state after the call, the returned cursor, and the returned
error, if any. -/
def Parse : Tok → List Char → Nat → Option (Tok × Nat × Option ParserErrorType)
  | .constantInt v, data, cur =>
      let r := constantIntParse v data cur
      some (.constantInt v, r.1, r.2)
  | .randomInt _, _, _ => none
  | .rangeInt lo hi s v, data, cur => some (rangeIntParse lo hi s v data cur)
  | .addArithmetic _ _, _, _ => none
  | .subArithmetic _ _, _, _ => none
  | .mulArithmetic _ _, _, _ => none
  | .divArithmetic _ _, _, _ => none
  | .least _ _ _, _, _ => none

/-! ### List, optional and structural-mutation interfaces -/

/-- The visible children (the `Get`/`Len` list interface): an arithmetic
token exposes its two operands, the repetition list its materialized
elements; the integer tokens do not implement the list interface. -/
def children : Tok → List Tok
  | .addArithmetic a b => [a, b]
  | .subArithmetic a b => [a, b]
  | .mulArithmetic a b => [a, b]
  | .divArithmetic a b => [a, b]
  | .least _ _ v => v
  | _ => []

/-- `Len()` for the variants that implement the list interface. -/
def Len : Tok → Option Nat
  | .addArithmetic _ _ => some 2
  | .subArithmetic _ _ => some 2
  | .mulArithmetic _ _ => some 2
  | .divArithmetic _ _ => some 2
  | .least _ _ v => some v.length
  | _ => none

/-- `IsOptional()`: only `Least` implements the optional interface, and it
is optional exactly when its minimum `n` is zero. -/
def IsOptional : Tok → Option Bool
  | .least n _ _ => some (decide (n = 0))
  | _ => none

/-- `Least.Activate`: a no-op when `n > 0`, otherwise the materialized
sequence becomes exactly one fresh clone of the template. -/
def Activate : Tok → Option Tok
  | .least n t v => if 0 < n then some (.least n t v) else some (.least n t [clone t])
  | _ => none

/-- `Least.Deactivate`: a no-op when `n > 0`, otherwise the materialized
sequence becomes empty. -/
def Deactivate : Tok → Option Tok
  | .least n t v => if 0 < n then some (.least n t v) else some (.least n t [])
  | _ => none

/-- `InternalReplace(old, new)` for the variants that implement it.  Go
compares tokens by pointer identity; the model compares structurally.  When
`old` is the repetition list's template, the template is replaced and every
materialized element is rebuilt as a fresh clone of the new template; an
arithmetic token swaps whichever operands equal `old`.  The integer tokens
have no `InternalReplace` method (`none`). -/
def InternalReplace : Tok → Tok → Tok → Option Tok
  | .least n t v, oldToken, newToken =>
      if t = oldToken then some (.least n newToken (v.map fun _ => clone newToken))
      else some (.least n t v)
  | .addArithmetic a b, oldToken, newToken =>
      some (.addArithmetic (if a = oldToken then newToken else a)
        (if b = oldToken then newToken else b))
  | .subArithmetic a b, oldToken, newToken =>
      some (.subArithmetic (if a = oldToken then newToken else a)
        (if b = oldToken then newToken else b))
  | .mulArithmetic a b, oldToken, newToken =>
      some (.mulArithmetic (if a = oldToken then newToken else a)
        (if b = oldToken then newToken else b))
  | .divArithmetic a b, oldToken, newToken =>
      some (.divArithmetic (if a = oldToken then newToken else a)
        (if b = oldToken then newToken else b))
  | _, _, _ => none

/-- Whether a token is the bounded-repetition list variant. -/
def isLeast : Tok → Bool
  | .least _ _ _ => true
  | _ => false

/-! ### Heap model of the object graph

`Clone`'s contract is about Go pointers: the copy must share no state with
the original, so that mutating the copy can never change the original's
rendered text.  To state that, token objects are modelled as records in an
explicit heap, children held by address exactly as the Go structs hold
pointers, and `Clone` as an allocating recursion. -/

/-- One heap record per token object: the variant's own fields, with every
child held by address. -/
inductive HNode where
  | constantInt (value : Int)
  | randomInt (value : Int)
  | rangeInt (lo hi step value : Int)
  | addArithmetic (a b : Nat)
  | subArithmetic (a b : Nat)
  | mulArithmetic (a b : Nat)
  | divArithmetic (a b : Nat)
  | least (n : Int) (token : Nat) (value : List Nat)
deriving DecidableEq

/-- The addresses a record points to: the arithmetic operands, or the
repetition list's template and materialized elements. -/
def childAddrs : HNode → List Nat
  | .addArithmetic a b => [a, b]
  | .subArithmetic a b => [a, b]
  | .mulArithmetic a b => [a, b]
  | .divArithmetic a b => [a, b]
  | .least _ t v => t :: v
  | _ => []

/-- A heap: a partial map from addresses to records. -/
def Heap := Nat → Option HNode

/-- Heap update at one address (a Go field assignment or allocation). -/
def hupdate (h : Heap) (a : Nat) (nd : HNode) : Heap :=
  fun b => if b = a then some nd else h b

/-- Every pointer stored in a record below the allocation watermark `n`
stays below `n`: the live object graph lives entirely under the
watermark. -/
def closedBelow (h : Heap) (n : Nat) : Prop :=
  ∀ a, a < n → ∀ nd, h a = some nd → ∀ c ∈ childAddrs nd, c < n

mutual

/-- `String()` over the heap, as in `render`, with `fuel` bounding the
recursion depth (Go recurses through the object graph; any tree is rendered
exactly once the fuel exceeds its height).  `none` models a panic, a
dangling address, or exhausted fuel. -/
def renderH : Nat → Heap → Nat → Option (List Char)
  | 0, _, _ => none
  | fuel + 1, h, a => do
      match ← h a with
      | .constantInt v => some (itoa v)
      | .randomInt v => some (itoa v)
      | .rangeInt _ _ _ v => some (itoa v)
      | .addArithmetic x y => do
          let sa ← renderH fuel h x
          let va ← goAtoi sa
          let sb ← renderH fuel h y
          let vb ← goAtoi sb
          some (itoa (int64wrap (va + vb)))
      | .subArithmetic x y => do
          let sa ← renderH fuel h x
          let va ← goAtoi sa
          let sb ← renderH fuel h y
          let vb ← goAtoi sb
          some (itoa (int64wrap (va - vb)))
      | .mulArithmetic x y => do
          let sa ← renderH fuel h x
          let va ← goAtoi sa
          let sb ← renderH fuel h y
          let vb ← goAtoi sb
          some (itoa (int64wrap (va * vb)))
      | .divArithmetic x y => do
          let sa ← renderH fuel h x
          let va ← goAtoi sa
          let sb ← renderH fuel h y
          let vb ← goAtoi sb
          if vb = 0 then none else some (itoa (int64wrap (va.tdiv vb)))
      | .least _ _ vs => renderHList fuel h vs
termination_by f _ _ => (f, 0)

/-- Concatenated rendering of a list of element addresses (the buffer loop
of `Least.String`). -/
def renderHList : Nat → Heap → List Nat → Option (List Char)
  | _, _, [] => some []
  | fuel, h, x :: xs => do
      let s ← renderH fuel h x
      let rest ← renderHList fuel h xs
      some (s ++ rest)
termination_by f _ l => (f, l.length + 1)

end

mutual

/-- `Clone()` over the heap: copies the record's fields, recursively cloning
every child first (operands in order; the repetition list's template, then
each element), and allocates the copy at the next free address `next`.
Returns the extended heap, the clone's address and the new watermark.
`fuel` bounds the recursion depth; `none` models exhausted fuel or a
dangling address. -/
def cloneH : Nat → Heap → Nat → Nat → Option (Heap × Nat × Nat)
  | 0, _, _, _ => none
  | fuel + 1, h, a, next => do
      match ← h a with
      | .constantInt v => some (hupdate h next (.constantInt v), next, next + 1)
      | .randomInt v => some (hupdate h next (.randomInt v), next, next + 1)
      | .rangeInt lo hi s v => some (hupdate h next (.rangeInt lo hi s v), next, next + 1)
      | .addArithmetic x y => do
          let (h1, x', n1) ← cloneH fuel h x next
          let (h2, y', n2) ← cloneH fuel h1 y n1
          some (hupdate h2 n2 (.addArithmetic x' y'), n2, n2 + 1)
      | .subArithmetic x y => do
          let (h1, x', n1) ← cloneH fuel h x next
          let (h2, y', n2) ← cloneH fuel h1 y n1
          some (hupdate h2 n2 (.subArithmetic x' y'), n2, n2 + 1)
      | .mulArithmetic x y => do
          let (h1, x', n1) ← cloneH fuel h x next
          let (h2, y', n2) ← cloneH fuel h1 y n1
          some (hupdate h2 n2 (.mulArithmetic x' y'), n2, n2 + 1)
      | .divArithmetic x y => do
          let (h1, x', n1) ← cloneH fuel h x next
          let (h2, y', n2) ← cloneH fuel h1 y n1
          some (hupdate h2 n2 (.divArithmetic x' y'), n2, n2 + 1)
      | .least n t vs => do
          let (h1, t', n1) ← cloneH fuel h t next
          let (h2, vs', n2) ← cloneHList fuel h1 vs n1
          some (hupdate h2 n2 (.least n t' vs'), n2, n2 + 1)
termination_by f _ _ _ => (f, 0)

/-- Clone of a list of element addresses, left to right (the loop in
`Least.Clone`). -/
def cloneHList : Nat → Heap → List Nat → Nat → Option (Heap × List Nat × Nat)
  | _, h, [], next => some (h, [], next)
  | fuel, h, x :: xs, next => do
      let (h1, x', n1) ← cloneH fuel h x next
      let (h2, xs', n2) ← cloneHList fuel h1 xs n1
      some (h2, x' :: xs', n2)
termination_by f _ l _ => (f, l.length + 1)

end

/-- The one-object heap used to witness the clone theorem: a single ranged
integer at address `0`. -/
def c7Heap : Heap := fun b => if b = 0 then some (.rangeInt 1 10 2 3) else none

/-! ### Helper lemmas -/

theorem int64wrap_lt (x : Int) : int64wrap x < 2 ^ 63 := by
  have h := Int.emod_lt_of_pos (x + 2 ^ 63) (b := 2 ^ 64) (by norm_num)
  unfold int64wrap
  omega

theorem neg_le_int64wrap (x : Int) : -(2 ^ 63) ≤ int64wrap x := by
  have h := Int.emod_nonneg (x + 2 ^ 63) (b := 2 ^ 64) (by norm_num)
  unfold int64wrap
  omega

theorem rangeIntPermutations_lt (lo hi s : Int) : rangeIntPermutations lo hi s < 2 ^ 64 := by
  by_cases hc : int64wrap ((int64wrap (hi - lo)).tdiv s + 1) < 0
  · simp [rangeIntPermutations, hc, maxUint32]
  · have h := int64wrap_lt ((int64wrap (hi - lo)).tdiv s + 1)
    simp only [rangeIntPermutations, hc, if_false]
    omega

theorem char_toNat_bounds {c : Char} (h1 : '0' ≤ c) (h2 : c ≤ '9') :
    48 ≤ c.toNat ∧ c.toNat ≤ 57 := by
  rw [Char.le_def] at h1 h2
  exact ⟨h1, h2⟩

theorem charDigit_lt_ten {c : Char} (h1 : '0' ≤ c) (h2 : c ≤ '9') : charDigit c < 10 := by
  have hb := char_toNat_bounds h1 h2
  unfold charDigit
  omega

theorem digitChar_charDigit {c : Char} (h1 : '0' ≤ c) (h2 : c ≤ '9') :
    digitChar (charDigit c) = c := by
  have hb := char_toNat_bounds h1 h2
  have he : 48 + (c.toNat - 48) = c.toNat := by omega
  rw [digitChar, charDigit, he, Char.ofNat_toNat]

theorem charDigit_ne_zero {c : Char} (h1 : '0' ≤ c) (h2 : c ≤ '9') (h3 : c ≠ '0') :
    charDigit c ≠ 0 := by
  intro h0
  have hb := char_toNat_bounds h1 h2
  have ht : c.toNat = 48 := by unfold charDigit at h0; omega
  have : c = '0' := by
    have := Char.ofNat_toNat c
    rw [ht] at this
    exact this.symm
  exact h3 this

theorem digitsVal_append (s : List Char) (c : Char) :
    digitsVal (s ++ [c]) = 10 * digitsVal s + charDigit c := by
  simp [digitsVal, List.foldl_append]

theorem digitsVal_eq_ofDigits (s : List Char) :
    digitsVal s = Nat.ofDigits 10 ((s.map charDigit).reverse) := by
  induction s using List.reverseRecOn with
  | nil => simp [digitsVal]
  | append_singleton l c ih =>
      rw [digitsVal_append, ih]
      simp [List.map_append, List.reverse_append, Nat.ofDigits_cons]
      ring

/-- Canonical decimal rendering inverts digit-string evaluation: a nonempty
digit string with no leading zero (except the string `"0"` itself) is
reproduced exactly by `natChars` from its value. -/
theorem natChars_digitsVal (d : List Char) (hne : d ≠ [])
    (hdig : ∀ c ∈ d, '0' ≤ c ∧ c ≤ '9')
    (hlead : d.head? = some '0' → d = ['0']) :
    natChars (digitsVal d) = d := by
  by_cases hz : d = ['0']
  · subst hz
    have h0 : digitsVal ['0'] = 0 := by decide
    rw [h0]
    rfl
  · have hhead : d.head? ≠ some '0' := fun hh => hz (hlead hh)
    obtain ⟨c, rest, rfl⟩ : ∃ c rest, d = c :: rest := by
      cases d with
      | nil => exact absurd rfl hne
      | cons c r => exact ⟨c, r, rfl⟩
    have hc : c ≠ '0' := fun hh => hhead (by simp [hh])
    have hcd : '0' ≤ c ∧ c ≤ '9' := hdig c (by simp)
    set L := ((c :: rest).map charDigit).reverse with hL
    have hLne : L ≠ [] := by simp [hL]
    have hL10 : ∀ l ∈ L, l < 10 := by
      intro l hl
      rw [hL, List.mem_reverse, List.mem_map] at hl
      obtain ⟨ch, hch, rfl⟩ := hl
      exact charDigit_lt_ten (hdig ch hch).1 (hdig ch hch).2
    have hlast : ∀ h : L ≠ [], L.getLast h ≠ 0 := by
      intro h
      have h1 : L.getLast? = some (charDigit c) := by
        rw [hL, List.getLast?_reverse]
        simp
      have h2 : L.getLast? = some (L.getLast h) := List.getLast?_eq_getLast L h
      rw [h1] at h2
      rw [← Option.some.inj h2]
      exact charDigit_ne_zero hcd.1 hcd.2 hc
    have hdg : Nat.digits 10 (Nat.ofDigits 10 L) = L :=
      Nat.digits_ofDigits 10 (by norm_num) L hL10 hlast
    have hval : digitsVal (c :: rest) = Nat.ofDigits 10 L := by
      rw [digitsVal_eq_ofDigits]
    have hn0 : digitsVal (c :: rest) ≠ 0 := by
      intro h0
      rw [hval] at h0
      rw [h0] at hdg
      simp only [Nat.digits_zero] at hdg
      exact hLne hdg.symm
    rw [natChars, if_neg hn0, hval, hdg, hL, List.reverse_reverse, List.map_map]
    have hmap : ∀ a ∈ c :: rest, (digitChar ∘ charDigit) a = id a := by
      intro a ha
      simp only [Function.comp_apply, id_eq]
      exact digitChar_charDigit (hdig a ha).1 (hdig a ha).2
    rw [List.map_congr_left hmap, List.map_id]

theorem itoa_natCast (n : Nat) : itoa (n : Int) = natChars n := by
  have h : ¬ ((n : Int) < 0) := by omega
  rw [itoa, if_neg h, Int.toNat_natCast]

/-- Invariant of the `RangeInt.Parse` digit loop: the final index never
moves backwards and never passes the end of the buffer, and the collected
string is the initial one extended by exactly the scanned slice of the
buffer, all of whose characters are decimal digits. -/
theorem rangeIntScan_spec (hi : Int) (rest : List Char) :
    ∀ (i : Nat) (v : List Char),
      i ≤ (rangeIntScan hi rest i v).1 ∧
      (rangeIntScan hi rest i v).1 ≤ i + rest.length ∧
      (rangeIntScan hi rest i v).2 = v ++ rest.take ((rangeIntScan hi rest i v).1 - i) ∧
      (∀ c ∈ rest.take ((rangeIntScan hi rest i v).1 - i), '0' ≤ c ∧ c ≤ '9') := by
  induction rest with
  | nil =>
      intro i v
      simp [rangeIntScan]
  | cons c rest ih =>
      intro i v
      by_cases h1 : c < '0' ∨ '9' < c
      · rw [rangeIntScan, if_pos h1]
        simp
      · rw [rangeIntScan, if_neg h1]
        push_neg at h1
        by_cases h2 : hi < atoiDigits (v ++ [c])
        · rw [if_pos h2]
          simp [List.dropLast_concat]
        · rw [if_neg h2]
          by_cases h3 : rest = []
          · rw [if_pos h3]
            subst h3
            refine ⟨Nat.le_succ i, by simp, by simp, ?_⟩
            intro ch hch
            simp only [Nat.add_sub_cancel_left, List.take_succ_cons, List.take_nil,
              List.mem_singleton] at hch
            subst hch
            exact ⟨h1.1, h1.2⟩
          · rw [if_neg h3]
            obtain ⟨ih1, ih2, ih3, ih4⟩ := ih (i + 1) (v ++ [c])
            set r := rangeIntScan hi rest (i + 1) (v ++ [c]) with hr
            have hsub : r.1 - i = (r.1 - (i + 1)) + 1 := by omega
            refine ⟨by omega, by simp only [List.length_cons]; omega, ?_, ?_⟩
            · rw [ih3, hsub, List.take_succ_cons]
              simp
            · intro ch hch
              rw [hsub, List.take_succ_cons] at hch
              rcases List.mem_cons.mp hch with hch | hch
              · subst hch
                exact ⟨h1.1, h1.2⟩
              · exact ih4 ch hch

/-- Rendering reads only the part of the heap below a watermark the object
graph is closed under: two heaps that agree below `n` render every address
below `n` (and every list of such addresses) identically. -/
theorem renderH_frame (g : Nat) :
    (∀ (h1 h2 : Heap) (n a : Nat), closedBelow h1 n → a < n →
      (∀ b, b < n → h2 b = h1 b) → renderH g h2 a = renderH g h1 a) ∧
    (∀ (h1 h2 : Heap) (n : Nat) (xs : List Nat), closedBelow h1 n →
      (∀ x ∈ xs, x < n) → (∀ b, b < n → h2 b = h1 b) →
      renderHList g h2 xs = renderHList g h1 xs) := by
  induction g with
  | zero =>
      refine ⟨fun _ _ _ _ _ _ _ => by simp [renderH], ?_⟩
      intro h1 h2 n xs hc
      induction xs with
      | nil => intro _ _; simp [renderHList]
      | cons x xs ihxs =>
          intro _ _
          simp [renderHList, renderH]
  | succ g ih =>
      obtain ⟨ihR, ihL⟩ := ih
      have hR : ∀ (h1 h2 : Heap) (n a : Nat), closedBelow h1 n → a < n →
          (∀ b, b < n → h2 b = h1 b) → renderH (g + 1) h2 a = renderH (g + 1) h1 a := by
        intro h1 h2 n a hc ha hag
        have hh : h2 a = h1 a := hag a ha
        cases hnd : h1 a with
        | none => simp [renderH, hh, hnd]
        | some nd =>
          have hch := hc a ha nd hnd
          cases nd with
          | constantInt v => simp [renderH, hh, hnd]
          | randomInt v => simp [renderH, hh, hnd]
          | rangeInt lo hi s v => simp [renderH, hh, hnd]
          | addArithmetic x y =>
              have hx : x < n := hch x (by simp [childAddrs])
              have hy : y < n := hch y (by simp [childAddrs])
              simp [renderH, hh, hnd, ihR h1 h2 n x hc hx hag, ihR h1 h2 n y hc hy hag]
          | subArithmetic x y =>
              have hx : x < n := hch x (by simp [childAddrs])
              have hy : y < n := hch y (by simp [childAddrs])
              simp [renderH, hh, hnd, ihR h1 h2 n x hc hx hag, ihR h1 h2 n y hc hy hag]
          | mulArithmetic x y =>
              have hx : x < n := hch x (by simp [childAddrs])
              have hy : y < n := hch y (by simp [childAddrs])
              simp [renderH, hh, hnd, ihR h1 h2 n x hc hx hag, ihR h1 h2 n y hc hy hag]
          | divArithmetic x y =>
              have hx : x < n := hch x (by simp [childAddrs])
              have hy : y < n := hch y (by simp [childAddrs])
              simp [renderH, hh, hnd, ihR h1 h2 n x hc hx hag, ihR h1 h2 n y hc hy hag]
          | least m t vs =>
              have hvs : ∀ v ∈ vs, v < n := fun v hv => hch v (by simp [childAddrs, hv])
              simp [renderH, hh, hnd, ihL h1 h2 n vs hc hvs hag]
      refine ⟨hR, ?_⟩
      intro h1 h2 n xs hc
      induction xs with
      | nil => intro _ _; simp [renderHList]
      | cons x xs ihxs =>
          intro hxs hag
          have htail := ihxs (fun z hz => hxs z (List.mem_cons_of_mem _ hz)) hag
          have hx := hxs x (List.mem_cons_self _ _)
          simp [renderHList, hR h1 h2 n x hc hx hag, htail]

/-- Specification of heap `Clone`: the clone is allocated entirely in the
fresh region at and above the watermark `next` (so it aliases nothing that
existed below `next`), the heap below `next` is untouched, the new
watermark closes over the extended object graph, and the clone renders
exactly as the original. -/
theorem cloneH_spec (fuel : Nat) :
    (∀ (h : Heap) (a next : Nat) (h' : Heap) (a' next' : Nat),
      cloneH fuel h a next = some (h', a', next') →
      next ≤ a' ∧ a' < next' ∧ next ≤ next' ∧
      (∀ b, b < next → h' b = h b) ∧
      (closedBelow h next → a < next →
        closedBelow h' next' ∧ ∀ g, renderH g h' a' = renderH g h a)) ∧
    (∀ (h : Heap) (xs : List Nat) (next : Nat) (h' : Heap) (xs' : List Nat) (next' : Nat),
      cloneHList fuel h xs next = some (h', xs', next') →
      next ≤ next' ∧ (∀ x' ∈ xs', next ≤ x' ∧ x' < next') ∧
      (∀ b, b < next → h' b = h b) ∧
      (closedBelow h next → (∀ x ∈ xs, x < next) →
        closedBelow h' next' ∧ ∀ g, renderHList g h' xs' = renderHList g h xs)) := by
  induction fuel with
  | zero =>
      constructor
      · intro h a next h' a' next' hclone
        rw [cloneH] at hclone
        simp at hclone
      · intro h xs next h' xs' next' hclone
        cases xs with
        | nil =>
            rw [cloneHList] at hclone
            simp only [Option.some_inj, Prod.mk.injEq] at hclone
            obtain ⟨hh', hxs', hnext'⟩ := hclone
            subst hh'
            subst hxs'
            subst hnext'
            exact ⟨le_refl _, by simp, fun b _ => rfl, fun hc _ => ⟨hc, fun g => rfl⟩⟩
        | cons z zs =>
            rw [cloneHList] at hclone
            simp [cloneH] at hclone
  | succ f ih =>
      obtain ⟨ihC, ihL⟩ := ih
      have PC : ∀ (h : Heap) (a next : Nat) (h' : Heap) (a' next' : Nat),
          cloneH (f + 1) h a next = some (h', a', next') →
          next ≤ a' ∧ a' < next' ∧ next ≤ next' ∧
          (∀ b, b < next → h' b = h b) ∧
          (closedBelow h next → a < next →
            closedBelow h' next' ∧ ∀ g, renderH g h' a' = renderH g h a) := by
        intro h a next h' a' next' hclone
        cases hha : h a with
        | none =>
            rw [cloneH, hha] at hclone
            simp at hclone
        | some nd =>
          cases nd with
          | constantInt v =>
              rw [cloneH, hha] at hclone
              simp only [Option.bind_eq_bind, Option.some_bind, Option.some_inj,
                Prod.mk.injEq] at hclone
              obtain ⟨hh', ha', hnext'⟩ := hclone
              subst hh'
              subst ha'
              subst hnext'
              refine ⟨le_refl _, Nat.lt_succ_self _, Nat.le_succ _, ?_, ?_⟩
              · intro b hb
                simp only [hupdate]
                rw [if_neg (show b ≠ next by omega)]
              · intro hcl ha
                constructor
                · intro b hb nd' hnd' c hc
                  by_cases hbn : b = next
                  · subst hbn
                    simp [hupdate] at hnd'
                    subst hnd'
                    simp [childAddrs] at hc
                  · have hblt : b < next := by omega
                    have hhb : h b = some nd' := by simpa [hupdate, hbn] using hnd'
                    have := hcl b hblt nd' hhb c hc
                    omega
                · intro g
                  cases g with
                  | zero => simp [renderH]
                  | succ g =>
                      have h1 : hupdate h next (.constantInt v) next
                          = some (HNode.constantInt v) := by simp [hupdate]
                      simp [renderH, h1, hha]
          | randomInt v =>
              rw [cloneH, hha] at hclone
              simp only [Option.bind_eq_bind, Option.some_bind, Option.some_inj,
                Prod.mk.injEq] at hclone
              obtain ⟨hh', ha', hnext'⟩ := hclone
              subst hh'
              subst ha'
              subst hnext'
              refine ⟨le_refl _, Nat.lt_succ_self _, Nat.le_succ _, ?_, ?_⟩
              · intro b hb
                simp only [hupdate]
                rw [if_neg (show b ≠ next by omega)]
              · intro hcl ha
                constructor
                · intro b hb nd' hnd' c hc
                  by_cases hbn : b = next
                  · subst hbn
                    simp [hupdate] at hnd'
                    subst hnd'
                    simp [childAddrs] at hc
                  · have hblt : b < next := by omega
                    have hhb : h b = some nd' := by simpa [hupdate, hbn] using hnd'
                    have := hcl b hblt nd' hhb c hc
                    omega
                · intro g
                  cases g with
                  | zero => simp [renderH]
                  | succ g =>
                      have h1 : hupdate h next (.randomInt v) next
                          = some (HNode.randomInt v) := by simp [hupdate]
                      simp [renderH, h1, hha]
          | rangeInt lo hi s v =>
              rw [cloneH, hha] at hclone
              simp only [Option.bind_eq_bind, Option.some_bind, Option.some_inj,
                Prod.mk.injEq] at hclone
              obtain ⟨hh', ha', hnext'⟩ := hclone
              subst hh'
              subst ha'
              subst hnext'
              refine ⟨le_refl _, Nat.lt_succ_self _, Nat.le_succ _, ?_, ?_⟩
              · intro b hb
                simp only [hupdate]
                rw [if_neg (show b ≠ next by omega)]
              · intro hcl ha
                constructor
                · intro b hb nd' hnd' c hc
                  by_cases hbn : b = next
                  · subst hbn
                    simp [hupdate] at hnd'
                    subst hnd'
                    simp [childAddrs] at hc
                  · have hblt : b < next := by omega
                    have hhb : h b = some nd' := by simpa [hupdate, hbn] using hnd'
                    have := hcl b hblt nd' hhb c hc
                    omega
                · intro g
                  cases g with
                  | zero => simp [renderH]
                  | succ g =>
                      have h1 : hupdate h next (.rangeInt lo hi s v) next
                          = some (HNode.rangeInt lo hi s v) := by simp [hupdate]
                      simp [renderH, h1, hha]
          | addArithmetic x y =>
              rw [cloneH, hha] at hclone
              simp only [Option.bind_eq_bind, Option.some_bind] at hclone
              rw [Option.bind_eq_some] at hclone
              obtain ⟨⟨h1, x', n1⟩, hc1, hclone⟩ := hclone
              simp only [Option.bind_eq_bind] at hclone
              rw [Option.bind_eq_some] at hclone
              obtain ⟨⟨h2, y', n2⟩, hc2, hclone⟩ := hclone
              simp only [Option.some_inj, Prod.mk.injEq] at hclone
              obtain ⟨hh', ha', hnext'⟩ := hclone
              subst hh'
              subst ha'
              subst hnext'
              obtain ⟨hx1, hx2, hx3, hx4, hx5⟩ := ihC h x next h1 x' n1 hc1
              obtain ⟨hy1, hy2, hy3, hy4, hy5⟩ := ihC h1 y n1 h2 y' n2 hc2
              refine ⟨by omega, by omega, by omega, ?_, ?_⟩
              · intro b hb
                simp only [hupdate]
                rw [if_neg (show b ≠ n2 by omega), hy4 b (by omega), hx4 b hb]
              · intro hcl ha
                have hx0 : x < next := hcl a ha _ hha x (by simp [childAddrs])
                have hy0 : y < next := hcl a ha _ hha y (by simp [childAddrs])
                obtain ⟨hcb1, hr1⟩ := hx5 hcl hx0
                obtain ⟨hcb2, hr2⟩ := hy5 hcb1 (by omega)
                constructor
                · intro b hb nd' hnd' c hc
                  by_cases hbn : b = n2
                  · subst hbn
                    simp [hupdate] at hnd'
                    subst hnd'
                    simp only [childAddrs, List.mem_cons, List.not_mem_nil, or_false] at hc
                    rcases hc with rfl | rfl
                    · omega
                    · omega
                  · have hblt : b < n2 := by omega
                    have hh2 : h2 b = some nd' := by simpa [hupdate, hbn] using hnd'
                    have := hcb2 b hblt nd' hh2 c hc
                    omega
                · intro g
                  cases g with
                  | zero => simp [renderH]
                  | succ g =>
                      have hrec : hupdate h2 n2 (.addArithmetic x' y') n2
                          = some (HNode.addArithmetic x' y') := by simp [hupdate]
                      have e1 : renderH g (hupdate h2 n2 (.addArithmetic x' y')) x'
                          = renderH g h2 x' :=
                        (renderH_frame g).1 h2 _ n2 x' hcb2 (by omega)
                          (fun b hb => by simp only [hupdate]; rw [if_neg (show b ≠ n2 by omega)])
                      have e2 : renderH g h2 x' = renderH g h1 x' :=
                        (renderH_frame g).1 h1 h2 n1 x' hcb1 (by omega) hy4
                      have e3 : renderH g h1 x' = renderH g h x := hr1 g
                      have f1 : renderH g (hupdate h2 n2 (.addArithmetic x' y')) y'
                          = renderH g h2 y' :=
                        (renderH_frame g).1 h2 _ n2 y' hcb2 (by omega)
                          (fun b hb => by simp only [hupdate]; rw [if_neg (show b ≠ n2 by omega)])
                      have f2 : renderH g h2 y' = renderH g h1 y := hr2 g
                      have f3 : renderH g h1 y = renderH g h y :=
                        (renderH_frame g).1 h h1 next y hcl hy0 hx4
                      simp [renderH, hrec, hha, e1, e2, e3, f1, f2, f3]
          | subArithmetic x y =>
              rw [cloneH, hha] at hclone
              simp only [Option.bind_eq_bind, Option.some_bind] at hclone
              rw [Option.bind_eq_some] at hclone
              obtain ⟨⟨h1, x', n1⟩, hc1, hclone⟩ := hclone
              simp only [Option.bind_eq_bind] at hclone
              rw [Option.bind_eq_some] at hclone
              obtain ⟨⟨h2, y', n2⟩, hc2, hclone⟩ := hclone
              simp only [Option.some_inj, Prod.mk.injEq] at hclone
              obtain ⟨hh', ha', hnext'⟩ := hclone
              subst hh'
              subst ha'
              subst hnext'
              obtain ⟨hx1, hx2, hx3, hx4, hx5⟩ := ihC h x next h1 x' n1 hc1
              obtain ⟨hy1, hy2, hy3, hy4, hy5⟩ := ihC h1 y n1 h2 y' n2 hc2
              refine ⟨by omega, by omega, by omega, ?_, ?_⟩
              · intro b hb
                simp only [hupdate]
                rw [if_neg (show b ≠ n2 by omega), hy4 b (by omega), hx4 b hb]
              · intro hcl ha
                have hx0 : x < next := hcl a ha _ hha x (by simp [childAddrs])
                have hy0 : y < next := hcl a ha _ hha y (by simp [childAddrs])
                obtain ⟨hcb1, hr1⟩ := hx5 hcl hx0
                obtain ⟨hcb2, hr2⟩ := hy5 hcb1 (by omega)
                constructor
                · intro b hb nd' hnd' c hc
                  by_cases hbn : b = n2
                  · subst hbn
                    simp [hupdate] at hnd'
                    subst hnd'
                    simp only [childAddrs, List.mem_cons, List.not_mem_nil, or_false] at hc
                    rcases hc with rfl | rfl
                    · omega
                    · omega
                  · have hblt : b < n2 := by omega
                    have hh2 : h2 b = some nd' := by simpa [hupdate, hbn] using hnd'
                    have := hcb2 b hblt nd' hh2 c hc
                    omega
                · intro g
                  cases g with
                  | zero => simp [renderH]
                  | succ g =>
                      have hrec : hupdate h2 n2 (.subArithmetic x' y') n2
                          = some (HNode.subArithmetic x' y') := by simp [hupdate]
                      have e1 : renderH g (hupdate h2 n2 (.subArithmetic x' y')) x'
                          = renderH g h2 x' :=
                        (renderH_frame g).1 h2 _ n2 x' hcb2 (by omega)
                          (fun b hb => by simp only [hupdate]; rw [if_neg (show b ≠ n2 by omega)])
                      have e2 : renderH g h2 x' = renderH g h1 x' :=
                        (renderH_frame g).1 h1 h2 n1 x' hcb1 (by omega) hy4
                      have e3 : renderH g h1 x' = renderH g h x := hr1 g
                      have f1 : renderH g (hupdate h2 n2 (.subArithmetic x' y')) y'
                          = renderH g h2 y' :=
                        (renderH_frame g).1 h2 _ n2 y' hcb2 (by omega)
                          (fun b hb => by simp only [hupdate]; rw [if_neg (show b ≠ n2 by omega)])
                      have f2 : renderH g h2 y' = renderH g h1 y := hr2 g
                      have f3 : renderH g h1 y = renderH g h y :=
                        (renderH_frame g).1 h h1 next y hcl hy0 hx4
                      simp [renderH, hrec, hha, e1, e2, e3, f1, f2, f3]
          | mulArithmetic x y =>
              rw [cloneH, hha] at hclone
              simp only [Option.bind_eq_bind, Option.some_bind] at hclone
              rw [Option.bind_eq_some] at hclone
              obtain ⟨⟨h1, x', n1⟩, hc1, hclone⟩ := hclone
              simp only [Option.bind_eq_bind] at hclone
              rw [Option.bind_eq_some] at hclone
              obtain ⟨⟨h2, y', n2⟩, hc2, hclone⟩ := hclone
              simp only [Option.some_inj, Prod.mk.injEq] at hclone
              obtain ⟨hh', ha', hnext'⟩ := hclone
              subst hh'
              subst ha'
              subst hnext'
              obtain ⟨hx1, hx2, hx3, hx4, hx5⟩ := ihC h x next h1 x' n1 hc1
              obtain ⟨hy1, hy2, hy3, hy4, hy5⟩ := ihC h1 y n1 h2 y' n2 hc2
              refine ⟨by omega, by omega, by omega, ?_, ?_⟩
              · intro b hb
                simp only [hupdate]
                rw [if_neg (show b ≠ n2 by omega), hy4 b (by omega), hx4 b hb]
              · intro hcl ha
                have hx0 : x < next := hcl a ha _ hha x (by simp [childAddrs])
                have hy0 : y < next := hcl a ha _ hha y (by simp [childAddrs])
                obtain ⟨hcb1, hr1⟩ := hx5 hcl hx0
                obtain ⟨hcb2, hr2⟩ := hy5 hcb1 (by omega)
                constructor
                · intro b hb nd' hnd' c hc
                  by_cases hbn : b = n2
                  · subst hbn
                    simp [hupdate] at hnd'
                    subst hnd'
                    simp only [childAddrs, List.mem_cons, List.not_mem_nil, or_false] at hc
                    rcases hc with rfl | rfl
                    · omega
                    · omega
                  · have hblt : b < n2 := by omega
                    have hh2 : h2 b = some nd' := by simpa [hupdate, hbn] using hnd'
                    have := hcb2 b hblt nd' hh2 c hc
                    omega
                · intro g
                  cases g with
                  | zero => simp [renderH]
                  | succ g =>
                      have hrec : hupdate h2 n2 (.mulArithmetic x' y') n2
                          = some (HNode.mulArithmetic x' y') := by simp [hupdate]
                      have e1 : renderH g (hupdate h2 n2 (.mulArithmetic x' y')) x'
                          = renderH g h2 x' :=
                        (renderH_frame g).1 h2 _ n2 x' hcb2 (by omega)
                          (fun b hb => by simp only [hupdate]; rw [if_neg (show b ≠ n2 by omega)])
                      have e2 : renderH g h2 x' = renderH g h1 x' :=
                        (renderH_frame g).1 h1 h2 n1 x' hcb1 (by omega) hy4
                      have e3 : renderH g h1 x' = renderH g h x := hr1 g
                      have f1 : renderH g (hupdate h2 n2 (.mulArithmetic x' y')) y'
                          = renderH g h2 y' :=
                        (renderH_frame g).1 h2 _ n2 y' hcb2 (by omega)
                          (fun b hb => by simp only [hupdate]; rw [if_neg (show b ≠ n2 by omega)])
                      have f2 : renderH g h2 y' = renderH g h1 y := hr2 g
                      have f3 : renderH g h1 y = renderH g h y :=
                        (renderH_frame g).1 h h1 next y hcl hy0 hx4
                      simp [renderH, hrec, hha, e1, e2, e3, f1, f2, f3]
          | divArithmetic x y =>
              rw [cloneH, hha] at hclone
              simp only [Option.bind_eq_bind, Option.some_bind] at hclone
              rw [Option.bind_eq_some] at hclone
              obtain ⟨⟨h1, x', n1⟩, hc1, hclone⟩ := hclone
              simp only [Option.bind_eq_bind] at hclone
              rw [Option.bind_eq_some] at hclone
              obtain ⟨⟨h2, y', n2⟩, hc2, hclone⟩ := hclone
              simp only [Option.some_inj, Prod.mk.injEq] at hclone
              obtain ⟨hh', ha', hnext'⟩ := hclone
              subst hh'
              subst ha'
              subst hnext'
              obtain ⟨hx1, hx2, hx3, hx4, hx5⟩ := ihC h x next h1 x' n1 hc1
              obtain ⟨hy1, hy2, hy3, hy4, hy5⟩ := ihC h1 y n1 h2 y' n2 hc2
              refine ⟨by omega, by omega, by omega, ?_, ?_⟩
              · intro b hb
                simp only [hupdate]
                rw [if_neg (show b ≠ n2 by omega), hy4 b (by omega), hx4 b hb]
              · intro hcl ha
                have hx0 : x < next := hcl a ha _ hha x (by simp [childAddrs])
                have hy0 : y < next := hcl a ha _ hha y (by simp [childAddrs])
                obtain ⟨hcb1, hr1⟩ := hx5 hcl hx0
                obtain ⟨hcb2, hr2⟩ := hy5 hcb1 (by omega)
                constructor
                · intro b hb nd' hnd' c hc
                  by_cases hbn : b = n2
                  · subst hbn
                    simp [hupdate] at hnd'
                    subst hnd'
                    simp only [childAddrs, List.mem_cons, List.not_mem_nil, or_false] at hc
                    rcases hc with rfl | rfl
                    · omega
                    · omega
                  · have hblt : b < n2 := by omega
                    have hh2 : h2 b = some nd' := by simpa [hupdate, hbn] using hnd'
                    have := hcb2 b hblt nd' hh2 c hc
                    omega
                · intro g
                  cases g with
                  | zero => simp [renderH]
                  | succ g =>
                      have hrec : hupdate h2 n2 (.divArithmetic x' y') n2
                          = some (HNode.divArithmetic x' y') := by simp [hupdate]
                      have e1 : renderH g (hupdate h2 n2 (.divArithmetic x' y')) x'
                          = renderH g h2 x' :=
                        (renderH_frame g).1 h2 _ n2 x' hcb2 (by omega)
                          (fun b hb => by simp only [hupdate]; rw [if_neg (show b ≠ n2 by omega)])
                      have e2 : renderH g h2 x' = renderH g h1 x' :=
                        (renderH_frame g).1 h1 h2 n1 x' hcb1 (by omega) hy4
                      have e3 : renderH g h1 x' = renderH g h x := hr1 g
                      have f1 : renderH g (hupdate h2 n2 (.divArithmetic x' y')) y'
                          = renderH g h2 y' :=
                        (renderH_frame g).1 h2 _ n2 y' hcb2 (by omega)
                          (fun b hb => by simp only [hupdate]; rw [if_neg (show b ≠ n2 by omega)])
                      have f2 : renderH g h2 y' = renderH g h1 y := hr2 g
                      have f3 : renderH g h1 y = renderH g h y :=
                        (renderH_frame g).1 h h1 next y hcl hy0 hx4
                      simp [renderH, hrec, hha, e1, e2, e3, f1, f2, f3]
          | least m t vs =>
              rw [cloneH, hha] at hclone
              simp only [Option.bind_eq_bind, Option.some_bind] at hclone
              rw [Option.bind_eq_some] at hclone
              obtain ⟨⟨h1, t', n1⟩, hc1, hclone⟩ := hclone
              simp only [Option.bind_eq_bind] at hclone
              rw [Option.bind_eq_some] at hclone
              obtain ⟨⟨h2, vs', n2⟩, hc2, hclone⟩ := hclone
              simp only [Option.some_inj, Prod.mk.injEq] at hclone
              obtain ⟨hh', ha', hnext'⟩ := hclone
              subst hh'
              subst ha'
              subst hnext'
              obtain ⟨hx1, hx2, hx3, hx4, hx5⟩ := ihC h t next h1 t' n1 hc1
              obtain ⟨hl1, hl2, hl3, hl4⟩ := ihL h1 vs n1 h2 vs' n2 hc2
              refine ⟨by omega, by omega, by omega, ?_, ?_⟩
              · intro b hb
                simp only [hupdate]
                rw [if_neg (show b ≠ n2 by omega), hl3 b (by omega), hx4 b hb]
              · intro hcl ha
                have ht0 : t < next := hcl a ha _ hha t (by simp [childAddrs])
                have hvs0 : ∀ z ∈ vs, z < next :=
                  fun z hz => hcl a ha _ hha z (by simp [childAddrs, hz])
                obtain ⟨hcb1, hr1⟩ := hx5 hcl ht0
                obtain ⟨hcb2, hr2⟩ := hl4 hcb1 (fun z hz => by have := hvs0 z hz; omega)
                constructor
                · intro b hb nd' hnd' c hc
                  by_cases hbn : b = n2
                  · subst hbn
                    simp [hupdate] at hnd'
                    subst hnd'
                    simp only [childAddrs, List.mem_cons] at hc
                    rcases hc with rfl | hc
                    · omega
                    · have := hl2 c hc
                      omega
                  · have hblt : b < n2 := by omega
                    have hh2 : h2 b = some nd' := by simpa [hupdate, hbn] using hnd'
                    have := hcb2 b hblt nd' hh2 c hc
                    omega
                · intro g
                  cases g with
                  | zero => simp [renderH]
                  | succ g =>
                      have hrec : hupdate h2 n2 (.least m t' vs') n2
                          = some (HNode.least m t' vs') := by simp [hupdate]
                      have e1 : renderHList g (hupdate h2 n2 (.least m t' vs')) vs'
                          = renderHList g h2 vs' :=
                        (renderH_frame g).2 h2 _ n2 vs' hcb2 (fun z hz => (hl2 z hz).2)
                          (fun b hb => by simp only [hupdate]; rw [if_neg (show b ≠ n2 by omega)])
                      have e2 : renderHList g h2 vs' = renderHList g h1 vs := hr2 g
                      have e3 : renderHList g h1 vs = renderHList g h vs :=
                        (renderH_frame g).2 h h1 next vs hcl hvs0 hx4
                      simp [renderH, hrec, hha, e1, e2, e3]
      refine ⟨PC, ?_⟩
      intro h xs
      revert h
      induction xs with
      | nil =>
          intro h next h' xs' next' hclone
          rw [cloneHList] at hclone
          simp only [Option.some_inj, Prod.mk.injEq] at hclone
          obtain ⟨hh', hxs', hnext'⟩ := hclone
          subst hh'
          subst hxs'
          subst hnext'
          exact ⟨le_refl _, by simp, fun b _ => rfl, fun hc _ => ⟨hc, fun g => rfl⟩⟩
      | cons z zs ihzs =>
          intro h next h' xs' next' hclone
          rw [cloneHList] at hclone
          simp only [Option.bind_eq_bind] at hclone
          rw [Option.bind_eq_some] at hclone
          obtain ⟨⟨h1, z', n1⟩, hc1, hclone⟩ := hclone
          simp only [Option.bind_eq_bind] at hclone
          rw [Option.bind_eq_some] at hclone
          obtain ⟨⟨h2, zs', n2⟩, hc2, hclone⟩ := hclone
          simp only [Option.some_inj, Prod.mk.injEq] at hclone
          obtain ⟨hh', hxs', hnext'⟩ := hclone
          subst hh'
          subst hxs'
          subst hnext'
          obtain ⟨ha1, ha2, ha3, ha4, ha5⟩ := PC h z next h1 z' n1 hc1
          obtain ⟨hb1, hb2, hb3, hb4⟩ := ihzs h1 n1 h2 zs' n2 hc2
          refine ⟨by omega, ?_, ?_, ?_⟩
          · intro w hw
            rcases List.mem_cons.mp hw with rfl | hw
            · exact ⟨by omega, by omega⟩
            · have := hb2 w hw
              exact ⟨by omega, by omega⟩
          · intro b hb
            rw [hb3 b (by omega), ha4 b hb]
          · intro hcl hzs
            have hz0 : z < next := hzs z (by simp)
            obtain ⟨hcb1, hr1⟩ := ha5 hcl hz0
            obtain ⟨hcb2, hr2⟩ := hb4 hcb1 (fun w hw => by
              have := hzs w (by simp [hw]); omega)
            refine ⟨hcb2, ?_⟩
            intro g
            have e1 : renderH g h2 z' = renderH g h1 z' :=
              (renderH_frame g).1 h1 h2 n1 z' hcb1 (by omega) hb3
            have e2 : renderH g h1 z' = renderH g h z := hr1 g
            have e3 : renderHList g h2 zs' = renderHList g h1 zs := hr2 g
            have e4 : renderHList g h1 zs = renderHList g h zs :=
              (renderH_frame g).2 h h1 next zs hcl
                (fun w hw => hzs w (by simp [hw])) ha4
            simp [renderHList, e1, e2, e3, e4]

/-! ### Claim theorems -/

/-- C1: evaluation of `RangeInt.Parse` at the failing input.  For the range
`[1,10]` with step `2`, the buffer `"1"` holds the node's own first
enumerated value (`Permutation(1)` keeps the value `1 = from + 0*step`, as
the second conjunct shows), and `1` satisfies the claim's success condition
`from ≤ v ≤ to` with `(v - from)` divisible by the step (third conjunct) —
yet `Parse` rejects it with unexpected-data at the original cursor, because
the source validates `v % step == 0` instead of `(v - from) % step == 0`. -/
theorem rangeInt_parse_step_check_bug :
    Parse (.rangeInt 1 10 2 1) ['1'] 0
      = some (.rangeInt 1 10 2 1, 0, some .unexpectedData) ∧
    Permutation (.rangeInt 1 10 2 1) 1 = some (.rangeInt 1 10 2 1, none) ∧
    ((1 : Int) ≤ 1 ∧ (1 : Int) ≤ 10 ∧ ((1 : Int) - 1) % 2 = 0) := by decide

/-- C2 counterexample: two ranged nodes with `2^62 + 1` permutations each
under an arithmetic parent give a true combinatorial product of
`(2^62+1)^2`, which exceeds the unsigned 64-bit range, yet
`PermutationsAll` returns the silently wrapped `2^63 + 1` — not the maximum
unsigned value and not the `math.MaxUint32` sentinel. -/
theorem permutationsAll_wraps_counterexample :
    PermutationsAll (.addArithmetic (.rangeInt 0 (2 ^ 62) 1 0) (.rangeInt 0 (2 ^ 62) 1 0))
      = some (2 ^ 63 + 1) ∧
    PermutationsAll (.rangeInt 0 (2 ^ 62) 1 0) = some (2 ^ 62 + 1) ∧
    2 ^ 64 - 1 < (2 ^ 62 + 1) * (2 ^ 62 + 1) ∧
    (2 ^ 63 + 1 : Nat) ≠ 2 ^ 64 - 1 ∧ (2 ^ 63 + 1 : Nat) ≠ maxUint32 := by decide

/-- C2 (amended): for every node on which `PermutationsAll` is implemented
(every variant but the repetition list), the result equals the node's own
`Permutations()` times the product of every visible child's
`PermutationsAll()`, reduced modulo `2^64` — Go `uint` multiplication wraps
silently instead of saturating. -/
theorem permutationsAll_composes_mod64 (t : Tok) (v : Nat)
    (h : PermutationsAll t = some v) :
    ∃ p l, Permutations t = some p ∧ (children t).mapM PermutationsAll = some l ∧
      v = p * l.prod % 2 ^ 64 := by
  cases t with
  | constantInt w =>
      have hv : v = 1 := by simpa [PermutationsAll] using h.symm
      subst hv
      exact ⟨1, [], rfl, rfl, by norm_num⟩
  | randomInt w =>
      have hv : v = 1 := by simpa [PermutationsAll] using h.symm
      subst hv
      exact ⟨1, [], rfl, rfl, by norm_num⟩
  | rangeInt lo hi s w =>
      have hv : v = rangeIntPermutations lo hi s := by simpa [PermutationsAll] using h.symm
      subst hv
      refine ⟨_, [], rfl, rfl, ?_⟩
      have hlt := rangeIntPermutations_lt lo hi s
      simp only [List.prod_nil, mul_one]
      exact (Nat.mod_eq_of_lt hlt).symm
  | addArithmetic x y =>
      cases hx : PermutationsAll x with
      | none => rw [PermutationsAll, hx] at h; simp at h
      | some a =>
        cases hy : PermutationsAll y with
        | none => rw [PermutationsAll, hx, hy] at h; simp at h
        | some b =>
          rw [PermutationsAll, hx, hy] at h
          simp only [Option.bind_eq_bind, Option.some_bind, Option.some_inj] at h
          refine ⟨1, [a, b], rfl, ?_, ?_⟩
          · simp [children, List.mapM, List.mapM.loop, hx, hy]
          · simp [← h]
  | subArithmetic x y =>
      cases hx : PermutationsAll x with
      | none => rw [PermutationsAll, hx] at h; simp at h
      | some a =>
        cases hy : PermutationsAll y with
        | none => rw [PermutationsAll, hx, hy] at h; simp at h
        | some b =>
          rw [PermutationsAll, hx, hy] at h
          simp only [Option.bind_eq_bind, Option.some_bind, Option.some_inj] at h
          refine ⟨1, [a, b], rfl, ?_, ?_⟩
          · simp [children, List.mapM, List.mapM.loop, hx, hy]
          · simp [← h]
  | mulArithmetic x y =>
      cases hx : PermutationsAll x with
      | none => rw [PermutationsAll, hx] at h; simp at h
      | some a =>
        cases hy : PermutationsAll y with
        | none => rw [PermutationsAll, hx, hy] at h; simp at h
        | some b =>
          rw [PermutationsAll, hx, hy] at h
          simp only [Option.bind_eq_bind, Option.some_bind, Option.some_inj] at h
          refine ⟨1, [a, b], rfl, ?_, ?_⟩
          · simp [children, List.mapM, List.mapM.loop, hx, hy]
          · simp [← h]
  | divArithmetic x y =>
      cases hx : PermutationsAll x with
      | none => rw [PermutationsAll, hx] at h; simp at h
      | some a =>
        cases hy : PermutationsAll y with
        | none => rw [PermutationsAll, hx, hy] at h; simp at h
        | some b =>
          rw [PermutationsAll, hx, hy] at h
          simp only [Option.bind_eq_bind, Option.some_bind, Option.some_inj] at h
          refine ⟨1, [a, b], rfl, ?_, ?_⟩
          · simp [children, List.mapM, List.mapM.loop, hx, hy]
          · simp [← h]
  | least n tmpl elems => simp [PermutationsAll] at h

/-- C2 witness: the amended composition law applied to an arithmetic node
over two constants. -/
theorem permutationsAll_composes_mod64_witness :
    PermutationsAll (.addArithmetic (.constantInt 3) (.constantInt 4)) = some 1 ∧
    ∃ p l, Permutations (.addArithmetic (.constantInt 3) (.constantInt 4)) = some p ∧
      (children (.addArithmetic (.constantInt 3) (.constantInt 4))).mapM PermutationsAll
        = some l ∧
      1 = p * l.prod % 2 ^ 64 :=
  ⟨by decide, permutationsAll_composes_mod64 _ 1 (by decide)⟩

/-- C3 counterexample: `Least.Permutation` is not implemented and panics
(`none`) even for the out-of-range index `0`, instead of returning an
index-out-of-bounds error. -/
theorem least_permutation_panics :
    Permutation (.least 1 (.constantInt 0) [.constantInt 0]) 0 = none := rfl

/-- C3 (amended): for every node variant except the bounded-repetition list
(whose `Permutation` is unimplemented and panics), an index `i` with
`i == 0` or `i > Permutations()` makes `Permutation(i)` return an
index-out-of-bounds error, leave the node unchanged, and not panic. -/
theorem permutation_index_out_of_bounds (t : Tok) (i p : Nat)
    (hleast : isLeast t = false) (hp : Permutations t = some p) (hi : i = 0 ∨ p < i) :
    Permutation t i = some (t, some .indexOutOfBound) := by
  cases t with
  | constantInt w =>
      have hp1 : p = 1 := by simpa [Permutations] using hp.symm
      subst hp1
      rcases hi with h0 | h1
      · subst h0; simp [Permutation]
      · simp [Permutation, h1]
  | randomInt w =>
      have hp1 : p = 1 := by simpa [Permutations] using hp.symm
      subst hp1
      rcases hi with h0 | h1
      · subst h0; simp [Permutation]
      · simp [Permutation, h1]
  | rangeInt lo hi' s w =>
      have hp1 : p = rangeIntPermutations lo hi' s := by simpa [Permutations] using hp.symm
      subst hp1
      rcases hi with h0 | h1
      · subst h0; simp [Permutation]
      · simp [Permutation, h1]
  | addArithmetic x y =>
      have hp1 : p = 1 := by simpa [Permutations] using hp.symm
      subst hp1
      rcases hi with h0 | h1
      · subst h0; simp [Permutation]
      · simp [Permutation, h1]
  | subArithmetic x y =>
      have hp1 : p = 1 := by simpa [Permutations] using hp.symm
      subst hp1
      rcases hi with h0 | h1
      · subst h0; simp [Permutation]
      · simp [Permutation, h1]
  | mulArithmetic x y =>
      have hp1 : p = 1 := by simpa [Permutations] using hp.symm
      subst hp1
      rcases hi with h0 | h1
      · subst h0; simp [Permutation]
      · simp [Permutation, h1]
  | divArithmetic x y =>
      have hp1 : p = 1 := by simpa [Permutations] using hp.symm
      subst hp1
      rcases hi with h0 | h1
      · subst h0; simp [Permutation]
      · simp [Permutation, h1]
  | least n tmpl elems => simp [isLeast] at hleast

/-- C3 witness: the amended error contract applied to a constant node at
index `0`. -/
theorem permutation_index_out_of_bounds_witness :
    isLeast (.constantInt 5) = false ∧ Permutations (.constantInt 5) = some 1 ∧
    Permutation (.constantInt 5) 0 = some (.constantInt 5, some .indexOutOfBound) :=
  ⟨rfl, rfl, permutation_index_out_of_bounds (.constantInt 5) 0 1 rfl rfl (Or.inl rfl)⟩

/-- C4: evaluation of `RangeInt.Permutations` at the failing input.  For the
constructible range `[-2^62, 2^62]` with step `1`, the claimed count
`floor((to-from)/step) + 1` is `2^63 + 1` (second conjunct), but the source
computes `to - from` in 64-bit `int`, which wraps to a negative value, and
returns the `math.MaxUint32` fallback instead (first conjunct). -/
theorem rangeInt_permutations_overflow_eval :
    Permutations (.rangeInt (-(2 ^ 62)) (2 ^ 62) 1 (-(2 ^ 62))) = some 4294967295 ∧
    ((2 ^ 62 : Int) - (-(2 ^ 62))).tdiv 1 + 1 = 2 ^ 63 + 1 ∧
    (4294967295 : Nat) ≠ 2 ^ 63 + 1 := by decide

/-- C5: for every ranged node, `Permutation(0)` and
`Permutation(Permutations()+1)` both return an index-out-of-bounds error
and leave the node's state — in particular its current value — exactly as
it was. -/
theorem rangeInt_permutation_oob_unchanged (lo hi s w : Int) (p : Nat)
    (hp : Permutations (.rangeInt lo hi s w) = some p) :
    Permutation (.rangeInt lo hi s w) 0
      = some (.rangeInt lo hi s w, some .indexOutOfBound) ∧
    Permutation (.rangeInt lo hi s w) (p + 1)
      = some (.rangeInt lo hi s w, some .indexOutOfBound) := by
  have hp1 : p = rangeIntPermutations lo hi s := by simpa [Permutations] using hp.symm
  subst hp1
  exact ⟨by simp [Permutation], by simp [Permutation, Nat.lt_succ_self]⟩

/-- C5 witness: the range `[1,10]` with step `2` has `5` permutations, and
indices `0` and `6` both fail without changing the value `1`. -/
theorem rangeInt_permutation_oob_unchanged_witness :
    Permutations (.rangeInt 1 10 2 1) = some 5 ∧
    Permutation (.rangeInt 1 10 2 1) 0 = some (.rangeInt 1 10 2 1, some .indexOutOfBound) ∧
    Permutation (.rangeInt 1 10 2 1) 6 = some (.rangeInt 1 10 2 1, some .indexOutOfBound) :=
  have h := rangeInt_permutation_oob_unchanged 1 10 2 1 5 (by decide)
  ⟨by decide, h.1, h.2⟩

/-- C6: `ConstantInt.Parse` at cursor `0` succeeds on the exact decimal text
of the constant, returning the cursor past it with no error; fails with
unexpected-EOF on any shorter buffer; and fails with unexpected-data on any
sufficiently long buffer whose prefix differs — returning the original
cursor in both failure cases and never changing the token. -/
theorem constantInt_parse_roundtrip (v : Int) (buf : List Char) :
    Parse (.constantInt v) (itoa v) 0 = some (.constantInt v, (itoa v).length, none) ∧
    (buf.length < (itoa v).length →
      Parse (.constantInt v) buf 0 = some (.constantInt v, 0, some .unexpectedEOF)) ∧
    ((itoa v).length ≤ buf.length → buf.take (itoa v).length ≠ itoa v →
      Parse (.constantInt v) buf 0 = some (.constantInt v, 0, some .unexpectedData)) := by
  refine ⟨?_, ?_, ?_⟩
  · simp [Parse, constantIntParse]
  · intro h
    simp [Parse, constantIntParse, h]
  · intro h1 h2
    have hnot : ¬ (buf.length < (itoa v).length) := by omega
    have hne : ¬ (itoa v = buf.take (itoa v).length) := fun hh => h2 hh.symm
    simp [Parse, constantIntParse, hnot, hne]

/-- C6 witness: the constant `42`: its text parses back, the one-byte buffer
`"4"` gives unexpected-EOF, and `"43"` gives unexpected-data. -/
theorem constantInt_parse_roundtrip_witness :
    Parse (.constantInt 42) (itoa 42) 0 = some (.constantInt 42, (itoa 42).length, none) ∧
    (['4'] : List Char).length < (itoa 42).length ∧
    Parse (.constantInt 42) ['4'] 0 = some (.constantInt 42, 0, some .unexpectedEOF) ∧
    (itoa 42).length ≤ (['4', '3'] : List Char).length ∧
    (['4', '3'] : List Char).take (itoa 42).length ≠ itoa 42 ∧
    Parse (.constantInt 42) ['4', '3'] 0 = some (.constantInt 42, 0, some .unexpectedData) := by
  have h42 : itoa 42 = ['4', '2'] := by
    have hd : Nat.digits 10 42 = [2, 4] := by norm_num [Nat.digits_def']
    simp [itoa, natChars, (rfl : ((42 : Int)).toNat = 42), hd]
    decide
  have hlen : (['4'] : List Char).length < (itoa 42).length := by rw [h42]; decide
  have hle : (itoa 42).length ≤ (['4', '3'] : List Char).length := by rw [h42]; decide
  have hne : (['4', '3'] : List Char).take (itoa 42).length ≠ itoa 42 := by rw [h42]; decide
  obtain ⟨p1, p2, _⟩ := constantInt_parse_roundtrip 42 ['4']
  obtain ⟨_, _, q3⟩ := constantInt_parse_roundtrip 42 ['4', '3']
  exact ⟨p1, hlen, p2 hlen, hle, hne, q3 hle hne⟩

/-- C8: replacing the repetition list's template through `InternalReplace`
installs the new template and rebuilds every materialized element as a
fresh clone of it, keeping the element count; replacing any other token is
a no-op. -/
theorem least_internalReplace_regenerates (n : Int) (tok tnew told : Tok) (val : List Tok) :
    (told = tok →
      InternalReplace (.least n tok val) told tnew
        = some (.least n tnew (List.replicate val.length (clone tnew)))) ∧
    (told ≠ tok →
      InternalReplace (.least n tok val) told tnew = some (.least n tok val)) := by
  constructor
  · intro h
    subst h
    simp [InternalReplace, List.map_const']
  · intro h
    have hne : ¬ (tok = told) := fun hh => h hh.symm
    simp [InternalReplace, hne]

/-- C8 witness: a two-element list over the template `1`: replacing the
template by `9` rebuilds both elements as clones of `9`; replacing the
unrelated token `5` changes nothing. -/
theorem least_internalReplace_regenerates_witness :
    InternalReplace (.least 2 (.constantInt 1) [.constantInt 1, .constantInt 1])
        (.constantInt 1) (.constantInt 9)
      = some (.least 2 (.constantInt 9)
          (List.replicate (List.length [Tok.constantInt 1, Tok.constantInt 1])
            (clone (.constantInt 9)))) ∧
    InternalReplace (.least 2 (.constantInt 1) [.constantInt 1, .constantInt 1])
        (.constantInt 5) (.constantInt 9)
      = some (.least 2 (.constantInt 1) [.constantInt 1, .constantInt 1]) :=
  ⟨(least_internalReplace_regenerates 2 (.constantInt 1) (.constantInt 9) (.constantInt 1)
      [.constantInt 1, .constantInt 1]).1 rfl,
   (least_internalReplace_regenerates 2 (.constantInt 1) (.constantInt 9) (.constantInt 5)
      [.constantInt 1, .constantInt 1]).2 (by decide)⟩

/-- C9: a repetition list with minimum `0` reports itself optional;
`Deactivate` empties the materialized sequence (length `0`, empty
rendering) and `Activate` rebuilds it as exactly one clone of the template
(length `1`); with a positive minimum both calls are no-ops. -/
theorem least_optional_toggle (n : Int) (tok : Tok) (val : List Tok) :
    (n = 0 →
      IsOptional (.least n tok val) = some true ∧
      Deactivate (.least n tok val) = some (.least n tok []) ∧
      Len (.least n tok ([] : List Tok)) = some 0 ∧
      render (.least n tok ([] : List Tok)) = some [] ∧
      Activate (.least n tok val) = some (.least n tok [clone tok]) ∧
      Len (.least n tok [clone tok]) = some 1) ∧
    (0 < n →
      Activate (.least n tok val) = some (.least n tok val) ∧
      Deactivate (.least n tok val) = some (.least n tok val)) := by
  constructor
  · intro h
    subst h
    refine ⟨by simp [IsOptional], by simp [Deactivate], by simp [Len], ?_,
      by simp [Activate], by simp [Len]⟩
    simp [render, renderList]
  · intro h
    exact ⟨by simp [Activate, h], by simp [Deactivate, h]⟩

/-- C9 witness: the optional toggle on an `n = 0` list over the constant
`7`, and the no-op behaviour on an `n = 1` list. -/
theorem least_optional_toggle_witness :
    (IsOptional (.least 0 (.constantInt 7) [.constantInt 7]) = some true ∧
     Deactivate (.least 0 (.constantInt 7) [.constantInt 7])
       = some (.least 0 (.constantInt 7) []) ∧
     Len (.least 0 (.constantInt 7) ([] : List Tok)) = some 0 ∧
     render (.least 0 (.constantInt 7) ([] : List Tok)) = some [] ∧
     Activate (.least 0 (.constantInt 7) [.constantInt 7])
       = some (.least 0 (.constantInt 7) [clone (.constantInt 7)]) ∧
     Len (.least 0 (.constantInt 7) [clone (.constantInt 7)]) = some 1) ∧
    (Activate (.least 1 (.constantInt 7) [.constantInt 7])
       = some (.least 1 (.constantInt 7) [.constantInt 7]) ∧
     Deactivate (.least 1 (.constantInt 7) [.constantInt 7])
       = some (.least 1 (.constantInt 7) [.constantInt 7])) :=
  ⟨(least_optional_toggle 0 (.constantInt 7) [.constantInt 7]).1 rfl,
   (least_optional_toggle 1 (.constantInt 7) [.constantInt 7]).2 (by decide)⟩

/-- C10 counterexample: parsing `"007"` into the range `[0,10]` succeeds,
consuming all three bytes (cursor `0 → 3`) and storing the value `7`, but a
subsequent `Render` produces `"7"` — not the digits consumed. -/
theorem rangeInt_parse_leading_zero_counterexample :
    Parse (.rangeInt 0 10 1 0) ['0', '0', '7'] 0 = some (.rangeInt 0 10 1 7, 3, none) ∧
    render (.rangeInt 0 10 1 7) = some ['7'] ∧
    (['0', '0', '7'] : List Char) ≠ ['7'] := by
  refine ⟨by decide, ?_, by decide⟩
  have hd : Nat.digits 10 7 = [7] := by norm_num [Nat.digits_def']
  simp [render, itoa, natChars, (rfl : ((7 : Int)).toNat = 7), hd]
  decide

/-- C10 (amended): when `RangeInt.Parse` fails, the token and the cursor
are returned exactly as they were; when it succeeds, the consumed slice is
a nonempty run of decimal digits, the token's value becomes that run's
numeric value (clamped by `Atoi` to `MaxInt64`), and a subsequent `Render`
reproduces the consumed digits exactly whenever they carry no leading zero
and their value fits a signed 64-bit integer. -/
theorem rangeInt_parse_state_effects (lo hi s w : Int) (data : List Char) (cur : Nat)
    (t' : Tok) (c' : Nat) (e : Option ParserErrorType)
    (h : Parse (.rangeInt lo hi s w) data cur = some (t', c', e)) :
    (e ≠ none → t' = .rangeInt lo hi s w ∧ c' = cur) ∧
    (e = none →
      (data.drop cur).take (c' - cur) ≠ [] ∧
      (∀ ch ∈ (data.drop cur).take (c' - cur), '0' ≤ ch ∧ ch ≤ '9') ∧
      t' = .rangeInt lo hi s (atoiDigits ((data.drop cur).take (c' - cur))) ∧
      ((((data.drop cur).take (c' - cur)).head? = some '0' →
          (data.drop cur).take (c' - cur) = ['0']) →
        (digitsVal ((data.drop cur).take (c' - cur)) : Int) ≤ maxInt64 →
        render t' = some ((data.drop cur).take (c' - cur)))) := by
  simp only [Parse, Option.some_inj] at h
  rw [rangeIntParse] at h
  by_cases hcur : cur = data.length
  · rw [if_pos hcur] at h
    rw [Prod.mk.injEq, Prod.mk.injEq] at h
    obtain ⟨h1, h2, h3⟩ := h
    constructor
    · intro _
      exact ⟨h1.symm, h2.symm⟩
    · intro he
      rw [← h3] at he
      simp at he
  · rw [if_neg hcur] at h
    simp only at h
    obtain ⟨hs1, hs2, hs3, hs4⟩ := rangeIntScan_spec hi (data.drop cur) cur []
    set r := rangeIntScan hi (data.drop cur) cur [] with hr
    simp only [List.nil_append] at hs3
    by_cases herr : r.2 = [] ∨ atoiDigits r.2 < lo ∨ hi < atoiDigits r.2 ∨
        (atoiDigits r.2).tmod s ≠ 0
    · rw [if_pos herr] at h
      rw [Prod.mk.injEq, Prod.mk.injEq] at h
      obtain ⟨h1, h2, h3⟩ := h
      constructor
      · intro _
        exact ⟨h1.symm, h2.symm⟩
      · intro he
        rw [← h3] at he
        simp at he
    · rw [if_neg herr] at h
      push_neg at herr
      obtain ⟨hvne, _, _, _⟩ := herr
      rw [Prod.mk.injEq, Prod.mk.injEq] at h
      obtain ⟨h1, h2, h3⟩ := h
      have hpos : cur + 1 ≤ r.1 := by
        rcases Nat.lt_or_ge r.1 (cur + 1) with hlt | hge
        · exfalso
          have h0 : r.1 - cur = 0 := by omega
          rw [hs3, h0, List.take_zero] at hvne
          exact hvne rfl
        · exact hge
      have hc' : c' = r.1 := by omega
      have hcons : (data.drop cur).take (c' - cur) = r.2 := by
        rw [hc', hs3]
      constructor
      · intro he
        exact absurd h3 (by simpa using he.symm)
      · intro _
        rw [hcons]
        have hdigits : ∀ ch ∈ r.2, '0' ≤ ch ∧ ch ≤ '9' := by
          rw [hs3]
          exact hs4
        refine ⟨hvne, hdigits, h1.symm, ?_⟩
        intro hlead hfit
        rw [← h1]
        have hmin : atoiDigits r.2 = (digitsVal r.2 : Int) := by
          rw [atoiDigits]
          exact min_eq_left hfit
        simp only [render]
        rw [hmin, itoa_natCast, natChars_digitsVal r.2 hvne hdigits hlead]

/-- C10 witness: parsing `"7"` into the range `[0,10]` stores `7` and the
frame/result conditions instantiate at that run. -/
theorem rangeInt_parse_state_effects_witness :
    Parse (.rangeInt 0 10 1 0) ['7'] 0 = some (.rangeInt 0 10 1 7, 1, none) ∧
    (((none : Option ParserErrorType) ≠ none →
        (Tok.rangeInt 0 10 1 7) = .rangeInt 0 10 1 0 ∧ 1 = 0) ∧
     ((none : Option ParserErrorType) = none →
        ((['7'] : List Char).drop 0).take (1 - 0) ≠ [] ∧
        (∀ ch ∈ ((['7'] : List Char).drop 0).take (1 - 0), '0' ≤ ch ∧ ch ≤ '9') ∧
        (Tok.rangeInt 0 10 1 7)
          = .rangeInt 0 10 1 (atoiDigits (((['7'] : List Char).drop 0).take (1 - 0))) ∧
        (((((['7'] : List Char).drop 0).take (1 - 0)).head? = some '0' →
            ((['7'] : List Char).drop 0).take (1 - 0) = ['0']) →
          (digitsVal (((['7'] : List Char).drop 0).take (1 - 0)) : Int) ≤ maxInt64 →
          render (.rangeInt 0 10 1 7) = some (((['7'] : List Char).drop 0).take (1 - 0))))) :=
  ⟨by decide,
   rangeInt_parse_state_effects 0 10 1 0 ['7'] 0 (.rangeInt 0 10 1 7) 1 none (by decide)⟩


/-- C7: over the explicit heap model of the object graph, `Clone` allocates
the copy entirely in the fresh region at or above the allocation watermark,
the clone's rendered text equals the original's, and any subsequent
mutation confined to that fresh region — which covers every mutation of the
clone's own records: `Fuzz`, `Permutation`, `Parse` value writes and
`InternalReplace` field writes — leaves the original's rendered text
unchanged, because the clone shares no heap record with the original. -/
theorem clone_no_shared_state (fuel g : Nat) (h : Heap) (a next : Nat)
    (h' : Heap) (a' next' : Nat) (hm : Heap)
    (hclosed : closedBelow h next) (ha : a < next)
    (hclone : cloneH fuel h a next = some (h', a', next'))
    (hmut : ∀ b, b < next → hm b = h' b) :
    next ≤ a' ∧
    renderH g h' a' = renderH g h a ∧
    renderH g hm a = renderH g h a := by
  obtain ⟨h1, h2, h3, h4, h5⟩ := (cloneH_spec fuel).1 h a next h' a' next' hclone
  obtain ⟨hcb, hr⟩ := h5 hclosed ha
  refine ⟨h1, hr g, ?_⟩
  have hag : ∀ b, b < next → hm b = h b := fun b hb => (hmut b hb).trans (h4 b hb)
  exact (renderH_frame g).1 h hm next a hclosed ha hag

/-- C7 witness: a one-object heap holding a ranged integer at address `0`
with watermark `1`: its clone lands at the fresh address `1`, renders
equally, and after overwriting the clone's record with a mutated value the
original still renders as before. -/
theorem clone_no_shared_state_witness :
    closedBelow c7Heap 1 ∧ (0 : Nat) < 1 ∧
    cloneH 1 c7Heap 0 1 = some (hupdate c7Heap 1 (.rangeInt 1 10 2 3), 1, 2) ∧
    (∀ b, b < 1 → hupdate (hupdate c7Heap 1 (.rangeInt 1 10 2 3)) 1 (.rangeInt 1 10 2 9) b
      = hupdate c7Heap 1 (.rangeInt 1 10 2 3) b) ∧
    (1 : Nat) ≤ 1 ∧
    renderH 1 (hupdate c7Heap 1 (.rangeInt 1 10 2 3)) 1 = renderH 1 c7Heap 0 ∧
    renderH 1 (hupdate (hupdate c7Heap 1 (.rangeInt 1 10 2 3)) 1 (.rangeInt 1 10 2 9)) 0
      = renderH 1 c7Heap 0 := by
  have hclosed : closedBelow c7Heap 1 := by
    intro b hb nd hnd c hc
    have hb0 : b = 0 := by omega
    subst hb0
    simp [c7Heap] at hnd
    subst hnd
    simp [childAddrs] at hc
  have hclone : cloneH 1 c7Heap 0 1 = some (hupdate c7Heap 1 (.rangeInt 1 10 2 3), 1, 2) := by
    rw [cloneH]
    simp [c7Heap]
  have hmut : ∀ b, b < 1 →
      hupdate (hupdate c7Heap 1 (.rangeInt 1 10 2 3)) 1 (.rangeInt 1 10 2 9) b
        = hupdate c7Heap 1 (.rangeInt 1 10 2 3) b := by
    intro b hb
    have hb0 : b = 0 := by omega
    subst hb0
    simp [hupdate]
  obtain ⟨w1, w2, w3⟩ := clone_no_shared_state 1 1 c7Heap 0 1
    (hupdate c7Heap 1 (.rangeInt 1 10 2 3)) 1 2
    (hupdate (hupdate c7Heap 1 (.rangeInt 1 10 2 3)) 1 (.rangeInt 1 10 2 9))
    hclosed (by omega) hclone hmut
  exact ⟨hclosed, by omega, hclone, hmut, w1, w2, w3⟩

end Tavor
